import Mathlib

/-!
Verification of the behavioral specification of native_package_install.py,
a one-shot dependency-vendoring utility.  The Python module is embedded
shallowly: Python strings become lists of characters, the file system and
the os.makedirs side effect become explicit oracles, and fallible code
returns Except values.  Every definition mirrors the corresponding Python
function of the source module; the theorems at the end of the file settle
the claims of the specification against these definitions.
-/

set_option maxRecDepth 20000

/-- Python strings are modelled as lists of characters. -/
abbrev Str := List Char

/-- Python str.split(sep) for single-character separators.
The empty string splits to a single empty segment, as in Python. -/
def splitChar (sep : Char) : Str → List Str
  | [] => [[]]
  | c :: cs =>
    match splitChar sep cs with
    | [] => [[]]
    | h :: t => if c = sep then [] :: h :: t else (c :: h) :: t

/-- Number of occurrences of a character in a string: Python str.count
for a single-character argument. -/
def countChar (c : Char) : Str → Nat
  | [] => 0
  | x :: xs => (if x = c then 1 else 0) + countChar c xs

/-- Python str.lstrip(chars): removes every leading character that is a
member of the character set chars, not the literal leading substring. -/
def lstrip (chars : Str) (s : Str) : Str :=
  s.dropWhile (fun c => chars.contains c)

/-- Python str.rstrip(chars): removes every trailing character that is a
member of the character set chars. -/
def rstrip (chars : Str) (s : Str) : Str :=
  (s.reverse.dropWhile (fun c => chars.contains c)).reverse

/-- Python string repetition s * n. -/
def pyStrMul (s : Str) : Nat → Str
  | 0 => []
  | n + 1 => s ++ pyStrMul s n

/-- posixpath.join for two components: if the second component starts with
a slash it replaces the first; if the first is empty or ends with a slash
the components are concatenated; otherwise a slash is inserted. -/
def pathJoin (a b : Str) : Str :=
  if b.head? = some '/' then b
  else if a = [] then a ++ b
  else if a.getLast? = some '/' then a ++ b
  else a ++ '/' :: b

/-- Outcome of the os.makedirs side effect, supplied as an oracle: the
call either succeeds or raises an exception carrying a message. -/
inductive MakedirsResult where
  | ok
  | error (msg : Str)

/-- A parsed package descriptor, the dict with keys namespace, name and
version built by parse_json.  The Lean keyword forces the spelling
namespace_ for the first field. -/
structure Package where
  namespace_ : Str
  name : Str
  version : Str
deriving DecidableEq

/-- Exceptions raised by the Python code paths modelled here: KeyError on
a missing dict key, TypeError on a wrongly-typed value, ValueError on a
failed tuple unpack (the error behind a bad manifest key or repository). -/
inductive PyError where
  | keyError (key : Str)
  | typeError (msg : Str)
  | valueError (msg : Str)
deriving DecidableEq

deriving instance DecidableEq for Except

/-- Message of the ValueError raised by a failed 2-tuple unpack. -/
def unpackMsg : Str := "unpack".toList

/-- format_url: the GitHub archive URL of a package. -/
def format_url (package : Package) : Str :=
  "https://github.com/".toList ++ package.namespace_ ++ "/".toList ++ package.name
    ++ "/archive/".toList ++ package.version ++ ".tar.gz".toList

/-- format_vendor_dir: os.path.join(base, namespace), with the os.makedirs
call wrapped in a bare try/except that discards every exception; the
returned path is the same in both branches of the match, exactly as the
Python function returns path whether or not makedirs raised. -/
def format_vendor_dir (makedirs : Str → MakedirsResult) (base namespace_ : Str) : Str :=
  match makedirs (pathJoin base namespace_) with
  | MakedirsResult.ok => pathJoin base namespace_
  | MakedirsResult.error _ => pathJoin base namespace_

/-- package_dir: the vendor directory of the namespace, a slash, then
name-version, via the format string of the source. -/
def package_dir (makedirs : Str → MakedirsResult) (vendor_dir : Str) (package : Package) : Str :=
  format_vendor_dir makedirs vendor_dir package.namespace_
    ++ '/' :: (package.name ++ '-' :: package.version)

/-- format_tar_file: computes (and discards) the vendor directory as the
source does, then returns the package directory with the -tar.gz suffix. -/
def format_tar_file (makedirs : Str → MakedirsResult) (vendor_dir : Str) (package : Package) : Str :=
  let _vendor := format_vendor_dir makedirs vendor_dir package.namespace_
  package_dir makedirs vendor_dir package ++ "-tar.gz".toList

/-- format_native_name: replaces dashes by underscores in both fields and
produces the underscore-dollar identifier of elm native code. -/
def format_native_name (namespace_ name : Str) : Str :=
  '_' :: (namespace_.map (fun c => if c = '-' then '_' else c))
    ++ '$' :: (name.map (fun c => if c = '-' then '_' else c))

/-- namespace_from_repo: lstrip of the character set of
https-colon-slash-slash-github-dot-com-slash, rstrip of the character set
of dot-g-i-t, then a split on slash unpacked into exactly two names. -/
def namespace_from_repo (repository : Str) : Except PyError (List Str) :=
  match splitChar '/' (rstrip ".git".toList (lstrip "https://github.com/".toList repository)) with
  | [namespace_, name] => Except.ok [namespace_, name]
  | _ => Except.error (PyError.valueError unpackMsg)

/-- parse_json: each manifest key is split on slash and unpacked into a
namespace and a package name; a key whose split is not exactly two
segments raises a ValueError. The manifest is its ordered list of items. -/
def parse_json : List (Str × Str) → Except PyError (List Package)
  | [] => Except.ok []
  | (name, version) :: rest =>
    match splitChar '/' name with
    | [namespace_, package_name] =>
      match parse_json rest with
      | Except.ok result =>
          Except.ok ({ namespace_ := namespace_, name := package_name, version := version } :: result)
      | Except.error e => Except.error e
    | _ => Except.error (PyError.valueError unpackMsg)

/-- What a path names on disk, for the os.path.isdir test. -/
inductive FileKind where
  | file
  | dir
deriving DecidableEq

/-- A snapshot of the file system: each path is a regular file, a
directory, or absent. -/
def FS := Str → Option FileKind

/-- os.path.isdir: true exactly when the path names a directory. -/
def os_path_isdir (fs : FS) (p : Str) : Bool :=
  match fs p with
  | some FileKind.dir => true
  | _ => false

/-- filter_packages: keeps the packages whose tar path is not a directory
on disk; the test the source applies is os.path.isdir, not existence. -/
def filter_packages (makedirs : Str → MakedirsResult) (fs : FS) (vendor_dir : Str)
    (packages : List Package) : List Package :=
  packages.filter (fun x => ! os_path_isdir fs (format_tar_file makedirs vendor_dir x))

/-- One download-and-extract performed by fetch_packages: the URL fetched,
the tar file written, and the directory extracted into. -/
structure FetchEvent where
  url : Str
  tar_filename : Str
  extract_to : Str
deriving DecidableEq

/-- fetch_packages: downloads every package in order and returns the list
unchanged; the network and tarfile side effects are recorded as events. -/
def fetch_packages (makedirs : Str → MakedirsResult) (vendor_dir : Str)
    (packages : List Package) : List FetchEvent × List Package :=
  (packages.map (fun package =>
      { url := format_url package
        tar_filename := format_tar_file makedirs vendor_dir package
        extract_to := format_vendor_dir makedirs vendor_dir package.namespace_ }),
   packages)

/-- JSON values as loaded by json.load with an ordered object hook. -/
inductive JVal where
  | str (s : Str)
  | num (n : Int)
  | bool (b : Bool)
  | null
  | arr (elems : List JVal)
  | obj (fields : List (Str × JVal))

/-- An ordered JSON object: the ordered key-value pairs of an OrderedDict.
Keys are unique in any document produced by json.load. -/
abbrev Doc := List (Str × JVal)

/-- First value stored under a key, the dict subscript read. -/
def lookupKey : Doc → Str → Option JVal
  | [], _ => none
  | (k, v) :: rest, key => if k = key then some v else lookupKey rest key

/-- Replacement of the value stored under a key, leaving every other entry
and the entry order unchanged: the in-place list mutation of the source
seen as a transformation of the document. -/
def setKey : Doc → Str → JVal → Doc
  | [], _, _ => []
  | (k, v) :: rest, key, val =>
    if k = key then (k, val) :: setKey rest key val
    else (k, v) :: setKey rest key val

/-- Python equality of a JSON value with a given string: true only on the
equal string value, false on every value of another type. -/
def jvalEqStr (s : Str) : JVal → Bool
  | JVal.str t => decide (s = t)
  | _ => false

/-- The body of the innermost loop of update_elm_package: append the
relative path unless the list already contains it, under exact string
equality. -/
def addRelPath (sds : List JVal) (relative_path : Str) : List JVal :=
  if sds.any (jvalEqStr relative_path) then sds else sds ++ [JVal.str relative_path]

/-- Folding addRelPath over a list of relative paths. -/
def mergeAll (sds : List JVal) (paths : List Str) : List JVal :=
  paths.foldl addRelPath sds

/-- The two JSON keys update_elm_package reads. -/
def repositoryKey : Str := "repository".toList

/-- The source-directories key of a config document. -/
def sourceDirsKey : Str := "source-directories".toList

/-- get_source_dirs: the source-directories list of the package's own
elm-package.json; the file read and its json.load are the fd oracle. -/
def get_source_dirs (makedirs : Str → MakedirsResult) (fd : Str → List Str)
    (vendor_dir : Str) (package : Package) : List Str :=
  fd (pathJoin (package_dir makedirs vendor_dir package) "elm-package.json".toList)

/-- The relative path built at line 186 of the source: the ascent string
of as many dot-dot-slash segments as the config path has slashes, joined
with the package directory and the sub-directory name. -/
def relative_path_of (config pkgdir dir_name : Str) : Str :=
  pathJoin (pathJoin (pyStrMul "../".toList (countChar '/' config)) pkgdir) dir_name

/-- The two nested loops over packages and their source directories that
grow the source-directories list of one config document. -/
def computeNewSds (makedirs : Str → MakedirsResult) (fd : Str → List Str) (vendor_dir : Str)
    (packages : List Package) (config : Str) (sds : List JVal) : List JVal :=
  packages.foldl (fun acc package =>
    (get_source_dirs makedirs fd vendor_dir package).foldl (fun acc2 dir_name =>
      addRelPath acc2 (relative_path_of config (package_dir makedirs vendor_dir package) dir_name))
      acc) sds

/-- The relative paths the nested loops of one config visit, in order. -/
def relPathsFor (makedirs : Str → MakedirsResult) (fd : Str → List Str) (vendor_dir : Str)
    (config : Str) : List Package → List Str
  | [] => []
  | package :: rest =>
    (get_source_dirs makedirs fd vendor_dir package).map
      (relative_path_of config (package_dir makedirs vendor_dir package))
      ++ relPathsFor makedirs fd vendor_dir config rest

/-- One f.write performed by update_elm_package: the config path, the
indent argument passed to json.dumps, and the document serialized. -/
structure WriteEvent where
  path : Str
  indent : Nat
  doc : Doc

/-- The config files on disk, as the documents json.load would produce. -/
def DocFS := Str → Doc

/-- The file system after a config file has been rewritten. -/
def updateFS (fsys : DocFS) (config : Str) (d : Doc) : DocFS :=
  fun p => if p = config then d else fsys p

/-- The body of the outer loop of update_elm_package for one config file:
reads the repository value, requires source-directories to hold a JSON
array, merges the relative paths into it, and returns the rewritten
document together with the repository value. -/
def process_config (makedirs : Str → MakedirsResult) (fd : Str → List Str) (vendor_dir : Str)
    (packages : List Package) (config : Str) (data : Doc) : Except PyError (Doc × JVal) :=
  match lookupKey data repositoryKey with
  | none => Except.error (PyError.keyError repositoryKey)
  | some repository =>
    match lookupKey data sourceDirsKey with
    | some (JVal.arr source_directories) =>
        Except.ok
          (setKey data sourceDirsKey
            (JVal.arr (computeNewSds makedirs fd vendor_dir packages config source_directories)),
           repository)
    | some _ => Except.error (PyError.typeError sourceDirsKey)
    | none => Except.error (PyError.keyError sourceDirsKey)

/-- The loop of update_elm_package: processes the configs in list order,
threading the file system, the write events, and the repository variable
that each iteration overwrites. -/
def update_go (makedirs : Str → MakedirsResult) (fd : Str → List Str) (vendor_dir : Str)
    (packages : List Package) :
    List Str → DocFS → JVal → List WriteEvent → Except PyError (DocFS × List WriteEvent × JVal)
  | [], fsys, repository, evs => Except.ok (fsys, evs, repository)
  | config :: rest, fsys, _repository, evs =>
    match process_config makedirs fd vendor_dir packages config (fsys config) with
    | Except.error e => Except.error e
    | Except.ok (newData, repository) =>
        update_go makedirs fd vendor_dir packages rest (updateFS fsys config newData) repository
          (evs ++ [{ path := config, indent := 4, doc := newData }])

/-- update_elm_package: the repository variable starts as the empty
string, every config is processed in order, and the last value read wins. -/
def update_elm_package (makedirs : Str → MakedirsResult) (fd : Str → List Str) (vendor_dir : Str)
    (configs : List Str) (packages : List Package) (fsys : DocFS) :
    Except PyError (DocFS × List WriteEvent × JVal) :=
  update_go makedirs fd vendor_dir packages configs fsys (JVal.str []) []

/-- The argument vector of the find-sed process munge_names launches for
one package. -/
def mungeCmd (makedirs : Str → MakedirsResult) (vendor_dir : Str) (package : Package)
    (namespace_ name : Str) : List Str :=
  ["find".toList, package_dir makedirs vendor_dir package, "-type".toList, "f".toList,
   "-exec".toList, "sed".toList, "-i".toList, [],
   "-e".toList,
   "s/".toList ++ format_native_name package.namespace_ package.name ++ "/".toList
     ++ format_native_name namespace_ name ++ "/g".toList,
   "\x7b\x7d".toList, ";".toList]

/-- munge_names: unpacks the repository into a namespace and a name via
namespace_from_repo, then builds one find-sed command per package.  A
non-string repository value raises before the unpack, as the lstrip call
would. -/
def munge_names (makedirs : Str → MakedirsResult) (vendor_dir : Str) (repository : JVal)
    (packages : List Package) : Except PyError (List (List Str)) :=
  match repository with
  | JVal.str repo =>
    match namespace_from_repo repo with
    | Except.ok [namespace_, name] =>
        Except.ok (packages.map (fun package => mungeCmd makedirs vendor_dir package namespace_ name))
    | Except.ok _ => Except.error (PyError.valueError unpackMsg)
    | Except.error e => Except.error e
  | _ => Except.error (PyError.typeError "lstrip".toList)

/-- The main function of the source: parse the manifest, drop the
packages whose tar path is a directory, fetch the rest, update the
configs, and munge with the repository value the update returned.  Lean
reserves the name main for entry points, hence the suffix. -/
def main_run (makedirs : Str → MakedirsResult) (fd : Str → List Str) (fs : FS)
    (raw_json : List (Str × Str)) (configs : List Str) (vendor : Str) (docfs : DocFS) :
    Except PyError (List FetchEvent × DocFS × List WriteEvent × List (List Str)) :=
  match parse_json raw_json with
  | Except.error e => Except.error e
  | Except.ok parsed =>
    let packages := filter_packages makedirs fs vendor parsed
    let fetched := fetch_packages makedirs vendor packages
    match update_elm_package makedirs fd vendor configs fetched.2 docfs with
    | Except.error e => Except.error e
    | Except.ok (docfs2, evs, repository) =>
      match munge_names makedirs vendor repository fetched.2 with
      | Except.error e => Except.error e
      | Except.ok cmds => Except.ok (fetched.1, docfs2, evs, cmds)

/-! Concrete data for the closed statements below. -/

/-- A makedirs oracle that always succeeds. -/
def mkOk : Str → MakedirsResult := fun _ => MakedirsResult.ok

/-- A makedirs oracle that always raises a permission error. -/
def mkFail : Str → MakedirsResult := fun _ => MakedirsResult.error "permission denied".toList

/-- The package of the doctests of the source. -/
def pkgNav : Package :=
  { namespace_ := "elm-lang".toList, name := "navigation".toList, version := "2.0.0".toList }

/-- The default vendor directory of the command line. -/
def vendorStd : Str := "vendor/assets/elm".toList

/-- The tar path of pkgNav under the default vendor directory. -/
def tarNav : Str := format_tar_file mkOk vendorStd pkgNav

/-- A disk on which the archive marker of pkgNav exists as a regular file. -/
def fsFileMarker : FS := fun p => if p = tarNav then some FileKind.file else none

/-- A disk on which the tar path of pkgNav is, unusually, a directory. -/
def fsDirMarker : FS := fun p => if p = tarNav then some FileKind.dir else none

/-- A repository URL whose owner and name collide with the character sets
stripped by namespace_from_repo. -/
def repoBipol : Str := "https://github.com/bipol/elm-ops-tooling.git".toList

/-- A metadata oracle declaring a single src source directory for every
vendored package. -/
def fdSrc : Str → List Str := fun _ => ["src".toList]

/-- A config path with no slash. -/
def cfgTop : Str := "elm-package.json".toList

/-- A config path at depth one. -/
def cfgApp : Str := "app/elm-package.json".toList

/-- The repository value of the first sample config. -/
def repoAcme : JVal := JVal.str "https://github.com/acme/app.git".toList

/-- The repository value of the second sample config. -/
def repoOther : JVal := JVal.str "https://github.com/other/thing.git".toList

/-- The first sample config document, with an empty source-directories
list. -/
def doc0 : Doc := [(repositoryKey, repoAcme), (sourceDirsKey, JVal.arr [])]

/-- The second sample config document. -/
def docB : Doc := [(repositoryKey, repoOther), (sourceDirsKey, JVal.arr [])]

/-- The relative path of the src directory of pkgNav seen from a config
at depth zero. -/
def rpNav : Str := "vendor/assets/elm/elm-lang/navigation-2.0.0/src".toList

/-- The relative path of the src directory of pkgNav seen from a config
at depth one. -/
def rpNavUp : Str := "../vendor/assets/elm/elm-lang/navigation-2.0.0/src".toList

/-- doc0 after one update with pkgNav. -/
def doc1 : Doc := [(repositoryKey, repoAcme), (sourceDirsKey, JVal.arr [JVal.str rpNav])]

/-- docB after one update with pkgNav from depth one. -/
def docB1 : Doc := [(repositoryKey, repoOther), (sourceDirsKey, JVal.arr [JVal.str rpNavUp])]

/-- A disk holding doc0 at every config path. -/
def dfs0 : DocFS := fun _ => doc0

/-- dfs0 after the top-level config has been rewritten. -/
def dfs1 : DocFS := updateFS dfs0 cfgTop doc1

/-- A disk holding docB at the depth-one config path and doc0 elsewhere. -/
def dfsAB : DocFS := fun p => if p = cfgApp then docB else doc0

/-- The package of the parse_json doctest key. -/
def pkgAB : Package := { namespace_ := "a".toList, name := "b".toList, version := "1".toList }

/-! Helper lemmas about the string primitives. -/

theorem splitChar_ne_nil (sep : Char) (s : Str) : splitChar sep s ≠ [] := by
  induction s with
  | nil => simp [splitChar]
  | cons c cs ih =>
    cases h : splitChar sep cs with
    | nil => simp [splitChar, h]
    | cons h1 t => simp only [splitChar, h]; split <;> simp

theorem splitChar_length (sep : Char) (s : Str) :
    (splitChar sep s).length = countChar sep s + 1 := by
  induction s with
  | nil => simp [splitChar, countChar]
  | cons c cs ih =>
    cases h : splitChar sep cs with
    | nil => exact absurd h (splitChar_ne_nil sep cs)
    | cons h1 t =>
      rw [h] at ih
      by_cases hc : c = sep
      · simp only [splitChar, h, if_pos hc, countChar, if_pos hc]
        simp at ih ⊢
        omega
      · simp only [splitChar, h, if_neg hc, countChar, if_neg hc]
        simp at ih ⊢
        omega

theorem splitChar_singleton (sep : Char) (s : Str) (a : Str)
    (h : splitChar sep s = [a]) : s = a ∧ sep ∉ a := by
  induction s generalizing a with
  | nil => simp [splitChar] at h; exact ⟨h.symm, by simp [h]⟩
  | cons c cs ih =>
    cases hcs : splitChar sep cs with
    | nil => exact absurd hcs (splitChar_ne_nil sep cs)
    | cons h1 t =>
      by_cases hc : c = sep
      · simp only [splitChar, hcs, if_pos hc] at h
        simp at h
      · simp only [splitChar, hcs, if_neg hc] at h
        obtain ⟨ha, ht⟩ := by simpa using h
        subst ht
        have := ih h1 (by rw [hcs])
        constructor
        · rw [← ha, this.1]
        · rw [← ha]
          intro hmem
          rcases List.mem_cons.mp hmem with h' | h'
          · exact hc h'.symm
          · exact this.2 h'

theorem splitChar_pair (sep : Char) (s : Str) (a b : Str)
    (h : splitChar sep s = [a, b]) : s = a ++ sep :: b ∧ sep ∉ a ∧ sep ∉ b := by
  induction s generalizing a with
  | nil => simp [splitChar] at h
  | cons c cs ih =>
    cases hcs : splitChar sep cs with
    | nil => exact absurd hcs (splitChar_ne_nil sep cs)
    | cons h1 t =>
      by_cases hc : c = sep
      · simp only [splitChar, hcs, if_pos hc] at h
        obtain ⟨ha, hh, ht⟩ := by simpa using h
        subst ht
        have := splitChar_singleton sep cs b (by rw [hcs, hh])
        subst hc
        refine ⟨?_, ?_, this.2⟩
        · subst ha; simp [this.1]
        · subst ha; simp
      · simp only [splitChar, hcs, if_neg hc] at h
        obtain ⟨ha, ht⟩ := by simpa using h
        subst ht
        have := ih h1 (by rw [hcs])
        refine ⟨?_, ?_, this.2.2⟩
        · rw [← ha]; simp [this.1]
        · rw [← ha]
          intro hmem
          rcases List.mem_cons.mp hmem with h' | h'
          · exact hc h'.symm
          · exact this.2.1 h'

/-! Helper lemmas about paths. -/

theorem head?_ne_of_not_mem {c : Char} {s : Str} (h : c ∉ s) : s.head? ≠ some c := by
  cases s with
  | nil => simp
  | cons a t =>
    simp only [List.head?_cons, ne_eq, Option.some.injEq]
    intro hac
    exact h (by simp [hac])

theorem pathJoin_nil_left (b : Str) : pathJoin [] b = b := by
  unfold pathJoin
  split
  · rfl
  · simp

theorem pathJoin_of_ends_slash {a : Str} (b : Str) (ha : a.getLast? = some '/')
    (hb : b.head? ≠ some '/') : pathJoin a b = a ++ b := by
  unfold pathJoin
  split_ifs <;> first | rfl | simp_all

theorem pathJoin_plain {a b : Str} (ha : a ≠ []) (ha2 : a.getLast? ≠ some '/')
    (hb : b.head? ≠ some '/') : pathJoin a b = a ++ '/' :: b := by
  unfold pathJoin
  split_ifs <;> first | rfl | simp_all

theorem pyStrMul_ascents_ne_nil (n : Nat) : pyStrMul "../".toList (n + 1) ≠ [] := by
  simp [pyStrMul]

theorem pyStrMul_ascents_getLast (n : Nat) :
    (pyStrMul "../".toList (n + 1)).getLast? = some '/' := by
  induction n with
  | zero => rfl
  | succ m ih =>
    show ("../".toList ++ pyStrMul "../".toList (m + 1)).getLast? = some '/'
    rw [List.getLast?_append_of_ne_nil _ (pyStrMul_ascents_ne_nil m), ih]

theorem format_vendor_dir_eq (makedirs : Str → MakedirsResult) (base namespace_ : Str) :
    format_vendor_dir makedirs base namespace_ = pathJoin base namespace_ := by
  unfold format_vendor_dir
  cases makedirs (pathJoin base namespace_) <;> rfl

/-! Helper lemmas about the document and merge operations. -/

theorem jvalEqStr_eq_true_iff (s : Str) (v : JVal) : jvalEqStr s v = true ↔ v = JVal.str s := by
  cases v <;> simp [jvalEqStr, eq_comm]

theorem any_jvalEqStr_iff (sds : List JVal) (s : Str) :
    sds.any (jvalEqStr s) = true ↔ JVal.str s ∈ sds := by
  rw [List.any_eq_true]
  constructor
  · rintro ⟨v, hv, hev⟩
    rwa [(jvalEqStr_eq_true_iff s v).mp hev] at hv
  · intro hmem
    exact ⟨JVal.str s, hmem, (jvalEqStr_eq_true_iff s _).mpr rfl⟩

theorem mem_addRelPath_of_mem {v : JVal} {sds : List JVal} (p : Str) (h : v ∈ sds) :
    v ∈ addRelPath sds p := by
  unfold addRelPath
  split
  · exact h
  · exact List.mem_append_left _ h

theorem str_mem_addRelPath_self (sds : List JVal) (p : Str) :
    JVal.str p ∈ addRelPath sds p := by
  unfold addRelPath
  split
  · exact (any_jvalEqStr_iff sds p).mp (by assumption)
  · exact List.mem_append_right _ (by simp)

theorem addRelPath_of_mem {sds : List JVal} {p : Str} (h : JVal.str p ∈ sds) :
    addRelPath sds p = sds := by
  unfold addRelPath
  rw [if_pos ((any_jvalEqStr_iff sds p).mpr h)]

theorem mem_mergeAll_of_mem {v : JVal} {sds : List JVal} (l : List Str) (h : v ∈ sds) :
    v ∈ mergeAll sds l := by
  induction l generalizing sds with
  | nil => exact h
  | cons q l' ih => exact ih (mem_addRelPath_of_mem q h)

theorem str_mem_mergeAll_of_mem_list {p : Str} {l : List Str} (sds : List JVal) (h : p ∈ l) :
    JVal.str p ∈ mergeAll sds l := by
  induction l generalizing sds with
  | nil => cases h
  | cons q l' ih =>
    rcases List.mem_cons.mp h with h' | h'
    · subst h'
      exact mem_mergeAll_of_mem l' (str_mem_addRelPath_self sds p)
    · exact ih (addRelPath sds q) h'

theorem mergeAll_of_all_mem {sds : List JVal} {l : List Str}
    (h : ∀ p ∈ l, JVal.str p ∈ sds) : mergeAll sds l = sds := by
  induction l with
  | nil => rfl
  | cons q l' ih =>
    show mergeAll (addRelPath sds q) l' = sds
    rw [addRelPath_of_mem (h q (by simp))]
    exact ih (fun p hp => h p (by simp [hp]))

theorem mergeAll_idem (sds : List JVal) (l : List Str) :
    mergeAll (mergeAll sds l) l = mergeAll sds l :=
  mergeAll_of_all_mem (fun _ hp => str_mem_mergeAll_of_mem_list sds hp)

theorem mergeAll_eq_append (sds : List JVal) (l : List Str) :
    ∃ app, mergeAll sds l = sds ++ app := by
  induction l generalizing sds with
  | nil => exact ⟨[], (List.append_nil sds).symm⟩
  | cons q l' ih =>
    show ∃ app, mergeAll (addRelPath sds q) l' = sds ++ app
    by_cases hq : sds.any (jvalEqStr q) = true
    · obtain ⟨app', happ'⟩ := ih sds
      rw [addRelPath, if_pos hq]
      exact ⟨app', happ'⟩
    · obtain ⟨app', happ'⟩ := ih (sds ++ [JVal.str q])
      rw [addRelPath, if_neg hq]
      exact ⟨JVal.str q :: app', by simp [happ']⟩

theorem setKey_map_fst (d : Doc) (k : Str) (v : JVal) :
    (setKey d k v).map Prod.fst = d.map Prod.fst := by
  induction d with
  | nil => rfl
  | cons kv rest ih =>
    obtain ⟨k', v'⟩ := kv
    unfold setKey
    split <;> simp [ih]

theorem lookupKey_setKey_ne {k' k : Str} (d : Doc) (v : JVal) (h : k' ≠ k) :
    lookupKey (setKey d k v) k' = lookupKey d k' := by
  induction d with
  | nil => rfl
  | cons kv rest ih =>
    obtain ⟨k0, v0⟩ := kv
    simp only [setKey]
    by_cases h0 : k0 = k
    · simp only [if_pos h0, lookupKey]
      have hk0 : ¬ k0 = k' := fun hh => h ((hh ▸ h0 : k' = k))
      rw [if_neg hk0, if_neg hk0, ih]
    · simp only [if_neg h0, lookupKey]
      by_cases h1 : k0 = k'
      · rw [if_pos h1, if_pos h1]
      · rw [if_neg h1, if_neg h1, ih]

theorem lookupKey_setKey_self {d : Doc} {k : Str} (v : JVal) (h : lookupKey d k ≠ none) :
    lookupKey (setKey d k v) k = some v := by
  induction d with
  | nil => exact absurd rfl h
  | cons kv rest ih =>
    obtain ⟨k0, v0⟩ := kv
    simp only [lookupKey] at h
    simp only [setKey]
    by_cases h0 : k0 = k
    · rw [if_pos h0]
      simp only [lookupKey]
      rw [if_pos h0]
    · rw [if_neg h0]
      simp only [lookupKey]
      rw [if_neg h0]
      rw [if_neg h0] at h
      exact ih h

theorem setKey_setKey (d : Doc) (k : Str) (w v : JVal) :
    setKey (setKey d k w) k v = setKey d k v := by
  induction d with
  | nil => rfl
  | cons kv rest ih =>
    obtain ⟨k0, v0⟩ := kv
    by_cases h0 : k0 = k
    · simp [setKey, h0, ih]
    · simp [setKey, h0, ih]

theorem computeNewSds_eq (makedirs : Str → MakedirsResult) (fd : Str → List Str)
    (vendor_dir : Str) (packages : List Package) (config : Str) (sds : List JVal) :
    computeNewSds makedirs fd vendor_dir packages config sds
      = mergeAll sds (relPathsFor makedirs fd vendor_dir config packages) := by
  induction packages generalizing sds with
  | nil => rfl
  | cons package rest ih =>
    show computeNewSds makedirs fd vendor_dir rest config
        ((get_source_dirs makedirs fd vendor_dir package).foldl
          (fun acc2 dir_name =>
            addRelPath acc2
              (relative_path_of config (package_dir makedirs vendor_dir package) dir_name)) sds)
      = _
    rw [ih]
    simp only [relPathsFor, mergeAll, List.foldl_append, List.foldl_map]

theorem repositoryKey_ne_sourceDirsKey : repositoryKey ≠ sourceDirsKey := by decide

theorem process_config_eq_ok {makedirs : Str → MakedirsResult} {fd : Str → List Str}
    {vendor_dir : Str} {packages : List Package} {config : Str} {data nd : Doc} {r : JVal}
    (h : process_config makedirs fd vendor_dir packages config data = Except.ok (nd, r)) :
    lookupKey data repositoryKey = some r ∧
    ∃ sds, lookupKey data sourceDirsKey = some (JVal.arr sds) ∧
      nd = setKey data sourceDirsKey
        (JVal.arr (mergeAll sds (relPathsFor makedirs fd vendor_dir config packages))) := by
  unfold process_config at h
  split at h
  · exact absurd h (by simp)
  · rename_i repv hrep
    split at h
    · rename_i sds hsd
      rw [Except.ok.injEq, Prod.mk.injEq] at h
      obtain ⟨hnd, hr⟩ := h
      subst hr
      exact ⟨hrep, sds, hsd, by rw [← hnd, computeNewSds_eq]⟩
    · exact absurd h (by simp)
    · exact absurd h (by simp)

theorem process_config_ok_of {makedirs : Str → MakedirsResult} {fd : Str → List Str}
    {vendor_dir : Str} {packages : List Package} {config : Str} {data : Doc} {r : JVal}
    {sds : List JVal} (hrep : lookupKey data repositoryKey = some r)
    (hsd : lookupKey data sourceDirsKey = some (JVal.arr sds)) :
    process_config makedirs fd vendor_dir packages config data
      = Except.ok
          (setKey data sourceDirsKey
            (JVal.arr (mergeAll sds (relPathsFor makedirs fd vendor_dir config packages))), r) := by
  unfold process_config
  simp only [hrep, hsd]
  rw [computeNewSds_eq]

theorem process_config_stable {makedirs : Str → MakedirsResult} {fd : Str → List Str}
    {vendor_dir : Str} {packages : List Package} {config : Str} {data nd : Doc} {r : JVal}
    (h : process_config makedirs fd vendor_dir packages config data = Except.ok (nd, r)) :
    process_config makedirs fd vendor_dir packages config nd = Except.ok (nd, r) := by
  obtain ⟨hrep, sds, hsd, hnd⟩ := process_config_eq_ok h
  have hrep2 : lookupKey nd repositoryKey = some r := by
    rw [hnd, lookupKey_setKey_ne _ _ repositoryKey_ne_sourceDirsKey]
    exact hrep
  have hsd2 : lookupKey nd sourceDirsKey
      = some (JVal.arr (mergeAll sds (relPathsFor makedirs fd vendor_dir config packages))) := by
    rw [hnd]
    exact lookupKey_setKey_self _ (by rw [hsd]; simp)
  rw [process_config_ok_of hrep2 hsd2, mergeAll_idem, hnd, setKey_setKey]

theorem update_go_nil_inv {makedirs : Str → MakedirsResult} {fd : Str → List Str}
    {vendor_dir : Str} {packages : List Package} {fsys : DocFS} {r0 : JVal}
    {evs0 : List WriteEvent} {fs1 : DocFS} {evs : List WriteEvent} {repo : JVal}
    (h : update_go makedirs fd vendor_dir packages [] fsys r0 evs0 = Except.ok (fs1, evs, repo)) :
    fs1 = fsys ∧ evs = evs0 ∧ repo = r0 := by
  simp only [update_go, Except.ok.injEq, Prod.mk.injEq] at h
  exact ⟨h.1.symm, h.2.1.symm, h.2.2.symm⟩

theorem update_go_pres_repo {makedirs : Str → MakedirsResult} {fd : Str → List Str}
    {vendor_dir : Str} {packages : List Package} {configs : List Str} {fsys : DocFS} {r0 : JVal}
    {evs0 : List WriteEvent} {fs1 : DocFS} {evs : List WriteEvent} {repo : JVal}
    (h : update_go makedirs fd vendor_dir packages configs fsys r0 evs0
          = Except.ok (fs1, evs, repo)) :
    ∀ p, lookupKey (fs1 p) repositoryKey = lookupKey (fsys p) repositoryKey := by
  induction configs generalizing fsys r0 evs0 with
  | nil =>
    intro p
    rw [(update_go_nil_inv h).1]
  | cons c rest ih =>
    simp only [update_go] at h
    split at h
    · exact absurd h (by simp)
    · rename_i newData repository hp
      intro p
      rw [ih h p]
      unfold updateFS
      by_cases hc : p = c
      · rw [if_pos hc, hc]
        obtain ⟨_, sds, _, hnd⟩ := process_config_eq_ok hp
        rw [hnd, lookupKey_setKey_ne _ _ repositoryKey_ne_sourceDirsKey]
      · rw [if_neg hc]

theorem update_go_untouched {makedirs : Str → MakedirsResult} {fd : Str → List Str}
    {vendor_dir : Str} {packages : List Package} {configs : List Str} {fsys : DocFS} {r0 : JVal}
    {evs0 : List WriteEvent} {fs1 : DocFS} {evs : List WriteEvent} {repo : JVal}
    (h : update_go makedirs fd vendor_dir packages configs fsys r0 evs0
          = Except.ok (fs1, evs, repo)) :
    ∀ p, p ∉ configs → fs1 p = fsys p := by
  induction configs generalizing fsys r0 evs0 with
  | nil =>
    intro p _
    rw [(update_go_nil_inv h).1]
  | cons c rest ih =>
    simp only [update_go] at h
    split at h
    · exact absurd h (by simp)
    · rename_i newData repository hp
      intro p hmem
      rw [ih h p (fun hr => hmem (by simp [hr]))]
      unfold updateFS
      rw [if_neg (fun hc => hmem (by simp [hc]))]

theorem update_go_append {makedirs : Str → MakedirsResult} {fd : Str → List Str}
    {vendor_dir : Str} {packages : List Package} (l1 l2 : List Str) (fsys : DocFS) (r0 : JVal)
    (evs0 : List WriteEvent) :
    update_go makedirs fd vendor_dir packages (l1 ++ l2) fsys r0 evs0
      = match update_go makedirs fd vendor_dir packages l1 fsys r0 evs0 with
        | Except.ok (f, e, r) => update_go makedirs fd vendor_dir packages l2 f r e
        | Except.error err => Except.error err := by
  induction l1 generalizing fsys r0 evs0 with
  | nil => rfl
  | cons c rest ih =>
    simp only [List.cons_append, update_go]
    cases hp : process_config makedirs fd vendor_dir packages c (fsys c) with
    | error e => rfl
    | ok val =>
      obtain ⟨newData, repository⟩ := val
      exact ih _ _ _

theorem update_go_saturated {makedirs : Str → MakedirsResult} {fd : Str → List Str}
    {vendor_dir : Str} {packages : List Package} {configs : List Str} {fsys : DocFS} {r0 : JVal}
    {evs0 : List WriteEvent} {fs1 : DocFS} {evs : List WriteEvent} {repo : JVal}
    (h : update_go makedirs fd vendor_dir packages configs fsys r0 evs0
          = Except.ok (fs1, evs, repo)) :
    ∀ c ∈ configs, ∃ rc,
      process_config makedirs fd vendor_dir packages c (fs1 c) = Except.ok (fs1 c, rc) := by
  induction configs generalizing fsys r0 evs0 with
  | nil => intro c hc; cases hc
  | cons c0 rest ih =>
    simp only [update_go] at h
    split at h
    · exact absurd h (by simp)
    · rename_i newData repository hp
      intro c hc
      by_cases hcr : c ∈ rest
      · exact ih h c hcr
      · have hc0 : c = c0 := by
          rcases List.mem_cons.mp hc with h' | h'
          · exact h'
          · exact absurd h' hcr
        subst hc0
        have hfs : fs1 c = newData := by
          rw [update_go_untouched h c hcr]
          unfold updateFS
          rw [if_pos rfl]
        rw [hfs]
        exact ⟨repository, process_config_stable hp⟩

theorem update_go_of_saturated {makedirs : Str → MakedirsResult} {fd : Str → List Str}
    {vendor_dir : Str} {packages : List Package} {configs : List Str} {fsys : DocFS}
    (hsat : ∀ c ∈ configs, ∃ rc,
      process_config makedirs fd vendor_dir packages c (fsys c) = Except.ok (fsys c, rc)) :
    ∀ r0 evs0, ∃ evs1 repo1,
      update_go makedirs fd vendor_dir packages configs fsys r0 evs0
        = Except.ok (fsys, evs1, repo1) := by
  revert hsat
  induction configs with
  | nil => exact fun _ r0 evs0 => ⟨evs0, r0, rfl⟩
  | cons c rest ih =>
    intro hsat r0 evs0
    obtain ⟨rc, hp⟩ := hsat c (by simp)
    have hupd : updateFS fsys c (fsys c) = fsys := by
      funext p
      unfold updateFS
      by_cases hc : p = c
      · rw [if_pos hc, hc]
      · rw [if_neg hc]
    simp only [update_go, hp]
    rw [hupd]
    exact ih (fun c' hc' => hsat c' (by simp [hc'])) rc _

theorem update_go_repo_agree {makedirs : Str → MakedirsResult} {fd : Str → List Str}
    {vendor_dir : Str} {packages : List Package} {configs : List Str} {fsys gsys : DocFS}
    {r0 : JVal} {e0 e0' : List WriteEvent} {f1 g1 : DocFS} {e1 e2 : List WriteEvent}
    {rep1 rep2 : JVal}
    (h1 : update_go makedirs fd vendor_dir packages configs fsys r0 e0 = Except.ok (f1, e1, rep1))
    (h2 : update_go makedirs fd vendor_dir packages configs gsys r0 e0' = Except.ok (g1, e2, rep2))
    (hag : ∀ p, lookupKey (fsys p) repositoryKey = lookupKey (gsys p) repositoryKey) :
    rep1 = rep2 := by
  induction configs generalizing fsys gsys r0 e0 e0' with
  | nil => rw [(update_go_nil_inv h1).2.2, (update_go_nil_inv h2).2.2]
  | cons c rest ih =>
    simp only [update_go] at h1 h2
    split at h1
    · exact absurd h1 (by simp)
    · rename_i nd1 r1 hp1
      split at h2
      · exact absurd h2 (by simp)
      · rename_i nd2 r2 hp2
        obtain ⟨hrep1, sds1, hsd1, hnd1⟩ := process_config_eq_ok hp1
        obtain ⟨hrep2, sds2, hsd2, hnd2⟩ := process_config_eq_ok hp2
        have hr : r1 = r2 := by
          have hc := hag c
          rw [hrep1, hrep2] at hc
          exact Option.some.inj hc
        subst hr
        refine ih h1 h2 ?_
        intro p
        unfold updateFS
        by_cases hc : p = c
        · rw [if_pos hc, if_pos hc, hnd1, hnd2,
            lookupKey_setKey_ne _ _ repositoryKey_ne_sourceDirsKey,
            lookupKey_setKey_ne _ _ repositoryKey_ne_sourceDirsKey]
          exact hag c
        · rw [if_neg hc, if_neg hc]
          exact hag p

theorem update_go_indent {makedirs : Str → MakedirsResult} {fd : Str → List Str}
    {vendor_dir : Str} {packages : List Package} {configs : List Str} {fsys : DocFS} {r0 : JVal}
    {evs0 : List WriteEvent} {fs1 : DocFS} {evs : List WriteEvent} {repo : JVal}
    (h : update_go makedirs fd vendor_dir packages configs fsys r0 evs0
          = Except.ok (fs1, evs, repo))
    (h0 : ∀ ev ∈ evs0, ev.indent = 4) : ∀ ev ∈ evs, ev.indent = 4 := by
  induction configs generalizing fsys r0 evs0 with
  | nil =>
    rw [(update_go_nil_inv h).2.1]
    exact h0
  | cons c rest ih =>
    simp only [update_go] at h
    split at h
    · exact absurd h (by simp)
    · rename_i nd r hp
      refine ih h ?_
      intro ev hev
      rcases List.mem_append.mp hev with h' | h'
      · exact h0 ev h'
      · simp only [List.mem_singleton] at h'
        rw [h']

/-! The claims. -/

/-- C1: the claim reads the archive marker as an already-fetched signal:
a package whose tar FILE exists should be excluded from the run.  The
source instead tests os.path.isdir on the tar path, so a package whose
marker exists as a regular file is retained and re-fetched; only the
anomalous case of the tar path being a directory is excluded.  This
closed statement evaluates filter_packages on both disks. -/
theorem c1_marker_file_not_skipped :
    fsFileMarker tarNav = some FileKind.file ∧
    filter_packages mkOk fsFileMarker vendorStd [pkgNav] = [pkgNav] ∧
    fsDirMarker tarNav = some FileKind.dir ∧
    filter_packages mkOk fsDirMarker vendorStd [pkgNav] = [] := by
  refine ⟨?_, ?_, ?_, ?_⟩ <;> decide

/-- C2: the claim says namespace_from_repo strips exactly the leading
URL and the trailing dot-git of every well-formed repository string.  The
source uses lstrip and rstrip, which strip character sets: on the
repository of this very project the call returns the pair of l and
elm-ops-toolin instead of bipol and elm-ops-tooling. -/
theorem c2_strip_sets_eval :
    namespace_from_repo repoBipol = Except.ok ["l".toList, "elm-ops-toolin".toList] ∧
    namespace_from_repo repoBipol ≠ Except.ok ["bipol".toList, "elm-ops-tooling".toList] := by
  constructor
  · decide
  · decide

/-- C3 counterexample: for the vendor base written with a trailing slash
the os.path.join inside package_dir inserts no second separator, so the
reconstructed string differs from the literal
vendor-slash-namespace-slash-name-dash-version of the claim. -/
theorem c3_counterexample :
    parse_json [("a/b".toList, "1".toList)] = Except.ok [pkgAB] ∧
    package_dir mkOk "v/".toList pkgAB
      ≠ "v/".toList ++ "/".toList ++ "a".toList ++ "/".toList ++ "b".toList
          ++ "-".toList ++ "1".toList := by
  constructor
  · decide
  · decide

/-- C3 (amended): for every valid manifest key and every vendor base that
is nonempty and does not end with a slash, parsing the key and computing
the package directory reconstructs vendor-slash-key-dash-version, which
is exactly vendor-slash-namespace-slash-name-dash-version. -/
theorem c3_round_trip (makedirs : Str → MakedirsResult) (vendor key version : Str)
    (p : Package) (hparse : parse_json [(key, version)] = Except.ok [p])
    (h1 : vendor ≠ []) (h2 : vendor.getLast? ≠ some '/') :
    package_dir makedirs vendor p = vendor ++ '/' :: (key ++ '-' :: version) := by
  cases hs : splitChar '/' key with
  | nil => exact absurd hs (splitChar_ne_nil _ _)
  | cons a t =>
    cases t with
    | nil => simp [parse_json, hs] at hparse
    | cons b t2 =>
      cases t2 with
      | nil =>
        simp only [parse_json, hs, Except.ok.injEq, List.cons.injEq, and_true] at hparse
        obtain ⟨hk, hna, hnb⟩ := splitChar_pair '/' key a b hs
        rw [← hparse]
        unfold package_dir
        rw [format_vendor_dir_eq]
        show pathJoin vendor a ++ '/' :: (b ++ '-' :: version) = _
        rw [pathJoin_plain h1 h2 (head?_ne_of_not_mem hna), hk]
        simp [List.append_assoc]
      | cons x t3 => simp [parse_json, hs] at hparse

/-- Witness for C3: the amended round trip evaluated on the doctest
package under the default vendor directory. -/
theorem c3_round_trip_witness :
    package_dir mkOk vendorStd pkgNav
      = vendorStd ++ '/' :: ("elm-lang/navigation".toList ++ '-' :: "2.0.0".toList) :=
  c3_round_trip mkOk vendorStd "elm-lang/navigation".toList "2.0.0".toList pkgNav
    (by decide) (by decide) (by decide)

/-- C6: parse_json raises on every single-entry manifest whose key has no
slash or more than one slash, and on a key with exactly one slash splits
it into the namespace and the name of the returned descriptor. -/
theorem c6_manifest_keys (key version : Str) :
    (countChar '/' key = 1 →
      ∃ ns nm, key = ns ++ '/' :: nm ∧ '/' ∉ ns ∧ '/' ∉ nm ∧
        parse_json [(key, version)]
          = Except.ok [{ namespace_ := ns, name := nm, version := version }]) ∧
    (countChar '/' key ≠ 1 →
      parse_json [(key, version)] = Except.error (PyError.valueError unpackMsg)) := by
  constructor
  · intro hcount
    have hlen : (splitChar '/' key).length = 2 := by rw [splitChar_length, hcount]
    cases hs : splitChar '/' key with
    | nil => rw [hs] at hlen; simp at hlen
    | cons a t =>
      cases t with
      | nil => rw [hs] at hlen; simp at hlen
      | cons b t2 =>
        cases t2 with
        | nil =>
          obtain ⟨hk, hna, hnb⟩ := splitChar_pair '/' key a b hs
          exact ⟨a, b, hk, hna, hnb, by simp [parse_json, hs]⟩
        | cons x t3 => rw [hs] at hlen; simp at hlen
  · intro hcount
    cases hs : splitChar '/' key with
    | nil => exact absurd hs (splitChar_ne_nil _ _)
    | cons a t =>
      cases t with
      | nil => simp [parse_json, hs]
      | cons b t2 =>
        cases t2 with
        | nil =>
          exfalso
          apply hcount
          have hl := splitChar_length '/' key
          rw [hs] at hl
          simp at hl
          omega
        | cons x t3 => simp [parse_json, hs]

/-- Witness for C6: the good key of the doctest and a two-slash key. -/
theorem c6_manifest_keys_witness :
    (∃ ns nm, "elm-lang/navigation".toList = ns ++ '/' :: nm ∧ '/' ∉ ns ∧ '/' ∉ nm ∧
      parse_json [("elm-lang/navigation".toList, "2.0.0".toList)]
        = Except.ok [{ namespace_ := ns, name := nm, version := "2.0.0".toList }]) ∧
    parse_json [("a/b/c".toList, "1".toList)] = Except.error (PyError.valueError unpackMsg) :=
  ⟨(c6_manifest_keys "elm-lang/navigation".toList "2.0.0".toList).1 (by decide),
   (c6_manifest_keys "a/b/c".toList "1".toList).2 (by decide)⟩

/-- C7: for a package directory and sub-directory that are relative
paths, the reference the Config Updater builds is exactly as many
dot-dot-slash ascents as the config path has slashes, followed by the
package directory, a slash, and the sub-directory; zero slashes give
zero ascents, so the reference starts with the package directory. -/
theorem c7_ascent_count (config pkgdir dir_name : Str) (h1 : pkgdir ≠ [])
    (h2 : pkgdir.head? ≠ some '/') (h3 : pkgdir.getLast? ≠ some '/')
    (h4 : dir_name.head? ≠ some '/') :
    relative_path_of config pkgdir dir_name
      = pyStrMul "../".toList (countChar '/' config) ++ pkgdir ++ '/' :: dir_name ∧
    (countChar '/' config = 0 →
      relative_path_of config pkgdir dir_name = pkgdir ++ '/' :: dir_name) := by
  have main : ∀ n, pathJoin (pathJoin (pyStrMul "../".toList n) pkgdir) dir_name
      = pyStrMul "../".toList n ++ pkgdir ++ '/' :: dir_name := by
    intro n
    cases n with
    | zero =>
      rw [show pyStrMul "../".toList 0 = [] from rfl, pathJoin_nil_left,
        pathJoin_plain h1 h3 h4]
      simp
    | succ m =>
      rw [pathJoin_of_ends_slash pkgdir (pyStrMul_ascents_getLast m) h2]
      have hne : pyStrMul "../".toList (m + 1) ++ pkgdir ≠ [] := by
        intro hh
        exact h1 (List.append_eq_nil.mp hh).2
      have hlast : (pyStrMul "../".toList (m + 1) ++ pkgdir).getLast? ≠ some '/' := by
        rw [List.getLast?_append_of_ne_nil _ h1]
        exact h3
      rw [pathJoin_plain hne hlast h4, List.append_assoc]
  refine ⟨main _, fun h0 => ?_⟩
  unfold relative_path_of
  rw [h0, show pyStrMul "../".toList 0 = [] from rfl, pathJoin_nil_left,
    pathJoin_plain h1 h3 h4]

/-- Witness for C7: a depth-one config path yields one ascent. -/
theorem c7_ascent_count_witness :
    relative_path_of cfgApp "vendor/assets/elm/elm-lang/navigation-2.0.0".toList "src".toList
      = pyStrMul "../".toList (countChar '/' cfgApp)
          ++ "vendor/assets/elm/elm-lang/navigation-2.0.0".toList ++ '/' :: "src".toList :=
  (c7_ascent_count cfgApp "vendor/assets/elm/elm-lang/navigation-2.0.0".toList "src".toList
    (by decide) (by decide) (by decide) (by decide)).1

/-- C9 counterexample: for a base that already ends in a slash,
os.path.join inserts no separator, so the returned path differs from the
literal base-slash-namespace string of the claim. -/
theorem c9_counterexample :
    format_vendor_dir mkOk "foo/".toList "bar".toList = "foo/bar".toList ∧
    format_vendor_dir mkOk "foo/".toList "bar".toList
      ≠ "foo/".toList ++ "/".toList ++ "bar".toList := by
  constructor
  · decide
  · decide

/-- C9 (amended): for a nonempty base with no trailing slash and a
namespace with no leading slash, format_vendor_dir returns the
base-slash-namespace string, and the returned path is independent of the
makedirs oracle: every exception of the directory creation, not only the
already-exists one, is swallowed and the result is unchanged. -/
theorem c9_vendor_dir (makedirs makedirs' : Str → MakedirsResult) (base namespace_ : Str)
    (h1 : base ≠ []) (h2 : base.getLast? ≠ some '/') (h3 : namespace_.head? ≠ some '/') :
    format_vendor_dir makedirs base namespace_ = base ++ '/' :: namespace_ ∧
    format_vendor_dir makedirs base namespace_ = format_vendor_dir makedirs' base namespace_ := by
  constructor
  · rw [format_vendor_dir_eq, pathJoin_plain h1 h2 h3]
  · rw [format_vendor_dir_eq, format_vendor_dir_eq]

/-- Witness for C9: the doctest inputs, compared across a succeeding and
a permission-denied makedirs oracle. -/
theorem c9_vendor_dir_witness :
    format_vendor_dir mkOk "foo".toList "bar".toList = "foo".toList ++ '/' :: "bar".toList ∧
    format_vendor_dir mkOk "foo".toList "bar".toList
      = format_vendor_dir mkFail "foo".toList "bar".toList :=
  c9_vendor_dir mkOk mkFail "foo".toList "bar".toList (by decide) (by decide) (by decide)

/-- C10: with an empty config list update_elm_package writes nothing,
leaves every file unchanged and returns the empty string; munge_names on
that empty string then raises, because namespace_from_repo of the empty
string splits into a single segment that cannot be unpacked into an
owner and a name, so a run with packages but no configs fails after the
fetch stage. -/
theorem c10_empty_configs (makedirs : Str → MakedirsResult) (fd : Str → List Str)
    (vendor_dir : Str) (packages : List Package) (fsys : DocFS) :
    update_elm_package makedirs fd vendor_dir [] packages fsys
      = Except.ok (fsys, [], JVal.str []) ∧
    namespace_from_repo [] = Except.error (PyError.valueError unpackMsg) ∧
    munge_names makedirs vendor_dir (JVal.str []) packages
      = Except.error (PyError.valueError unpackMsg) :=
  ⟨rfl, rfl, rfl⟩

/-- C4: the Config Updater is idempotent.  A successful run leaves the
config files in a state on which a second run with the same packages
rewrites every document to itself: the file system after two runs equals
the file system after one, so every source-directories list is identical,
and the returned repository value is also unchanged. -/
theorem c4_update_idempotent (makedirs : Str → MakedirsResult) (fd : Str → List Str)
    (vendor_dir : Str) (configs : List Str) (packages : List Package) (fsys fs1 : DocFS)
    (evs : List WriteEvent) (repo : JVal)
    (h : update_elm_package makedirs fd vendor_dir configs packages fsys
          = Except.ok (fs1, evs, repo)) :
    ∃ evs2, update_elm_package makedirs fd vendor_dir configs packages fs1
      = Except.ok (fs1, evs2, repo) := by
  unfold update_elm_package at h ⊢
  have hsat := update_go_saturated h
  obtain ⟨evs2, repo2, h2⟩ := update_go_of_saturated hsat (JVal.str []) []
  have hagree : ∀ p, lookupKey (fsys p) repositoryKey = lookupKey (fs1 p) repositoryKey :=
    fun p => (update_go_pres_repo h p).symm
  have hrr : repo = repo2 := update_go_repo_agree h h2 hagree
  refine ⟨evs2, ?_⟩
  rw [h2, hrr]

/-- Witness for C4: a one-config one-package run evaluated concretely;
running the updater again on the written state rewrites nothing. -/
theorem c4_update_idempotent_witness :
    ∃ evs2, update_elm_package mkOk fdSrc vendorStd [cfgTop] [pkgNav] dfs1
      = Except.ok (dfs1, evs2, repoAcme) :=
  c4_update_idempotent mkOk fdSrc vendorStd [cfgTop] [pkgNav] dfs0 dfs1
    [{ path := cfgTop, indent := 4, doc := doc1 }] repoAcme rfl

/-- C5: the Config Updater only changes the source-directories field.
For one config document, the rewritten document has the same keys in the
same order, every key other than source-directories keeps its value, and
the source-directories array keeps its entries, values and order, with
new entries only appended at the end; every file write of a run carries
the json.dumps indent of 4. -/
theorem c5_frame :
    (∀ (makedirs : Str → MakedirsResult) (fd : Str → List Str) (vendor_dir : Str)
        (packages : List Package) (config : Str) (data nd : Doc) (r : JVal),
      process_config makedirs fd vendor_dir packages config data = Except.ok (nd, r) →
        nd.map Prod.fst = data.map Prod.fst ∧
        (∀ k, k ≠ sourceDirsKey → lookupKey nd k = lookupKey data k) ∧
        (∀ sds, lookupKey data sourceDirsKey = some (JVal.arr sds) →
          ∃ app, lookupKey nd sourceDirsKey = some (JVal.arr (sds ++ app)))) ∧
    (∀ (makedirs : Str → MakedirsResult) (fd : Str → List Str) (vendor_dir : Str)
        (configs : List Str) (packages : List Package) (fsys fs1 : DocFS)
        (evs : List WriteEvent) (repo : JVal),
      update_elm_package makedirs fd vendor_dir configs packages fsys
          = Except.ok (fs1, evs, repo) →
        ∀ ev ∈ evs, ev.indent = 4) := by
  constructor
  · intro mk fd v ps config data nd r h
    obtain ⟨hrep, sds, hsd, hnd⟩ := process_config_eq_ok h
    refine ⟨?_, ?_, ?_⟩
    · rw [hnd, setKey_map_fst]
    · intro k hk
      rw [hnd, lookupKey_setKey_ne _ _ hk]
    · intro sds' hsd'
      rw [hsd] at hsd'
      have hss : sds = sds' := JVal.arr.inj (Option.some.inj hsd')
      subst hss
      obtain ⟨app, happ⟩ := mergeAll_eq_append sds (relPathsFor mk fd v config ps)
      refine ⟨app, ?_⟩
      rw [hnd, lookupKey_setKey_self _ (by rw [hsd]; simp), happ]
  · intro mk fd v configs ps fsys fs1 evs repo h
    unfold update_elm_package at h
    exact update_go_indent h (fun ev hev => absurd hev (List.not_mem_nil ev))

/-- Witness for C5: the frame conditions evaluated on the sample config:
the repository entry survives the rewrite, and the write event of the
concrete run carries indent 4. -/
theorem c5_frame_witness :
    lookupKey doc1 repositoryKey = lookupKey doc0 repositoryKey ∧
    ({ path := cfgTop, indent := 4, doc := doc1 } : WriteEvent).indent = 4 :=
  ⟨(c5_frame.1 mkOk fdSrc vendorStd [pkgNav] cfgTop doc0 doc1 repoAcme rfl).2.1
      repositoryKey (by decide),
   (c5_frame.2 mkOk fdSrc vendorStd [cfgTop] [pkgNav] dfs0 dfs1
      [{ path := cfgTop, indent := 4, doc := doc1 }] repoAcme rfl)
      { path := cfgTop, indent := 4, doc := doc1 } (by simp)⟩

/-- C8: update_elm_package processes the configs in list order and the
repository value it returns and hands to the Name Munger (main passes it
to munge_names unchanged) is the repository field of the last config of
the list, as that config stood when the run read it, which by the
preservation of the repository field equals its value on the initial
file system: earlier configs with different repository values are
overwritten. -/
theorem c8_last_repository (makedirs : Str → MakedirsResult) (fd : Str → List Str)
    (vendor_dir : Str) (cs : List Str) (c : Str) (packages : List Package)
    (fsys fs1 : DocFS) (evs : List WriteEvent) (repo : JVal)
    (h : update_elm_package makedirs fd vendor_dir (cs ++ [c]) packages fsys
          = Except.ok (fs1, evs, repo)) :
    lookupKey (fsys c) repositoryKey = some repo := by
  unfold update_elm_package at h
  rw [update_go_append] at h
  cases hm : update_go makedirs fd vendor_dir packages cs fsys (JVal.str []) [] with
  | error e =>
    rw [hm] at h
    exact absurd h (by simp)
  | ok val =>
    obtain ⟨fm, em, rm⟩ := val
    rw [hm] at h
    simp only [update_go] at h
    split at h
    · exact absurd h (by simp)
    · rename_i nd r hp
      have hrepo : repo = r := by
        rw [Except.ok.injEq, Prod.mk.injEq, Prod.mk.injEq] at h
        exact h.2.2.symm
      obtain ⟨hrep, sds, hsd, hnd⟩ := process_config_eq_ok hp
      rw [hrepo, ← update_go_pres_repo hm c]
      exact hrep

/-- Witness for C8: two configs with different repository values; the
returned value is the repository of the second, read off the initial
file system. -/
theorem c8_last_repository_witness :
    lookupKey (dfsAB cfgApp) repositoryKey = some repoOther :=
  c8_last_repository mkOk fdSrc vendorStd [cfgTop] cfgApp [pkgNav] dfsAB
    (updateFS (updateFS dfsAB cfgTop doc1) cfgApp docB1)
    [{ path := cfgTop, indent := 4, doc := doc1 },
     { path := cfgApp, indent := 4, doc := docB1 }]
    repoOther rfl
